import Mathlib

/-!
Verification of the statistical distance engine in
`src/heuristic_comparisons/wasserstein_distance_testing.py`
(class `StatisticalDistanceTest`).

Python floats that can be NaN are modelled by `PyFloat` (NaN or an exact
rational value); comparisons against NaN are `false`, as in IEEE-754 and
Python.  Normalized measures are modelled by `NormVal`: the normalization
`(x - mean) / std` produces NaN when the standard deviation is zero, and
otherwise the real number `num / sqrt(var)`, which we represent exactly by
the rational pair `(num, var)` (the order on such values is decidable).
The random resampling of `np.random.choice` is modelled by an explicit
stream of random indices.
-/

namespace StatisticalDistanceTest

/-- A Python float as consumed by the rank classifier: NaN or an exact value.
Any `<` comparison involving NaN is `false` (IEEE-754 / Python semantics). -/
inductive PyFloat where
  | nan : PyFloat
  | val : ℚ → PyFloat
deriving DecidableEq

/-- Python `<` on floats: false whenever either side is NaN. -/
def PyFloat.lt : PyFloat → PyFloat → Bool
  | .val a, .val b => decide (a < b)
  | _, _ => false

/-- Python `<=` on floats: false whenever either side is NaN. -/
def PyFloat.le : PyFloat → PyFloat → Bool
  | .val a, .val b => decide (a ≤ b)
  | _, _ => false

/-- One row of `StatisticalDistanceTest.LETTER_RANKS`. -/
structure RankRow where
  wasserstein_boundary : ℚ
  kolmogorov_smirnov_boundary : ℚ
  rank : String
deriving DecidableEq

/-- The letter-rank table, transcribed from the class attribute `LETTER_RANKS`. -/
def LETTER_RANKS : List RankRow := [
  ⟨0.030, 0.080, "S"⟩,
  ⟨0.060, 0.150, "A"⟩,
  ⟨0.100, 0.170, "B"⟩,
  ⟨0.125, 0.220, "C"⟩,
  ⟨0.150, 0.260, "D"⟩,
  ⟨0.200, 0.300, "E"⟩,
  ⟨0.250, 0.340, "F"⟩]

/-- The loop body of `_letter_rank_distance_statistics`: walk the table in
order, return the first rank whose two strict comparisons both hold, else
fall through; after the loop return "F". -/
def letterRankScan : List RankRow → PyFloat → PyFloat → String
  | [], _, _ => "F"
  | grade :: rest, wasserstein_d_value, ks_d_value =>
    if wasserstein_d_value.lt (.val grade.wasserstein_boundary)
        && ks_d_value.lt (.val grade.kolmogorov_smirnov_boundary)
    then grade.rank
    else letterRankScan rest wasserstein_d_value ks_d_value

/-- The method `_letter_rank_distance_statistics` of the class. -/
def letter_rank_distance_statistics (wasserstein_d_value ks_d_value : PyFloat) : String :=
  letterRankScan LETTER_RANKS wasserstein_d_value ks_d_value

/-- Spec-side classifier (for the refinement claim about the classifier):
the label of the first table row for which both distance values are
strictly below the row's boundaries, and "F" when no row matches. -/
def specRankFirstMatch (wasserstein_d_value ks_d_value : ℚ) : String :=
  match LETTER_RANKS.find? (fun grade =>
      decide (wasserstein_d_value < grade.wasserstein_boundary)
        && decide (ks_d_value < grade.kolmogorov_smirnov_boundary)) with
  | some grade => grade.rank
  | none => "F"

/-- The seven letter labels in severity order, best to worst. -/
def stdLabels : List String := ["S", "A", "B", "C", "D", "E", "F"]

/-- Severity of a label: its position in `stdLabels` (S = 0 … F = 6). -/
def rankSeverity (s : String) : ℕ := stdLabels.findIdx (fun t => t == s)

/-- Index of the first table row matched by a pair of rational distance
values; the table's length when no row matches. -/
def scanIdx : List RankRow → ℚ → ℚ → ℕ
  | [], _, _ => 0
  | grade :: rest, w, ks =>
    if w < grade.wasserstein_boundary ∧ ks < grade.kolmogorov_smirnov_boundary
    then 0
    else scanIdx rest w ks + 1

/-- Row-wise comparison of two rank tables: same labels, and every boundary
of the second table at least as large as the corresponding boundary of the
first. -/
def TableScaledUp (t t' : List RankRow) : Prop :=
  List.Forall₂ (fun g g' =>
    g.wasserstein_boundary ≤ g'.wasserstein_boundary ∧
    g.kolmogorov_smirnov_boundary ≤ g'.kolmogorov_smirnov_boundary ∧
    g.rank = g'.rank) t t'

theorem letterRankScan_eq_find (t : List RankRow) (w ks : ℚ) :
    letterRankScan t (.val w) (.val ks) =
      (match t.find? (fun grade =>
          decide (w < grade.wasserstein_boundary)
            && decide (ks < grade.kolmogorov_smirnov_boundary)) with
       | some grade => grade.rank
       | none => "F") := by
  induction t with
  | nil => rfl
  | cons g rest ih =>
    by_cases h : (decide (w < g.wasserstein_boundary)
        && decide (ks < g.kolmogorov_smirnov_boundary)) = true
    · simp [letterRankScan, PyFloat.lt, List.find?, h]
    · rw [Bool.not_eq_true] at h
      simp only [letterRankScan, PyFloat.lt, List.find?, h]
      simpa using ih

/-- Scanning with NaN as the wasserstein value always falls through to "F". -/
theorem letterRankScan_nan_left (t : List RankRow) (ks : PyFloat) :
    letterRankScan t .nan ks = "F" := by
  induction t with
  | nil => rfl
  | cons g rest ih => simpa [letterRankScan, PyFloat.lt] using ih

/-- Scanning with NaN as the KS value always falls through to "F". -/
theorem letterRankScan_nan_right (t : List RankRow) (w : PyFloat) :
    letterRankScan t w .nan = "F" := by
  induction t with
  | nil => rfl
  | cons g rest ih =>
    cases w with
    | nan => simpa [letterRankScan, PyFloat.lt] using ih
    | val q => simpa [letterRankScan, PyFloat.lt] using ih

/-- The scan only ever returns a label from the table or the fallback "F". -/
theorem letterRankScan_mem (t : List RankRow) (w ks : PyFloat) :
    letterRankScan t w ks = "F" ∨ letterRankScan t w ks ∈ t.map (fun g => g.rank) := by
  induction t with
  | nil => exact Or.inl rfl
  | cons g rest ih =>
    by_cases h : (w.lt (.val g.wasserstein_boundary)
        && ks.lt (.val g.kolmogorov_smirnov_boundary)) = true
    · right
      simp [letterRankScan, h]
    · rw [Bool.not_eq_true] at h
      simp only [letterRankScan, h, Bool.false_eq_true, if_false, List.map_cons]
      rcases ih with h1 | h1
      · exact Or.inl h1
      · exact Or.inr (List.mem_cons_of_mem _ h1)

instance instDecidableTableScaledUp : (t t' : List RankRow) → Decidable (TableScaledUp t t')
  | [], [] => .isTrue .nil
  | [], _ :: _ => .isFalse (fun h => by cases h)
  | _ :: _, [] => .isFalse (fun h => by cases h)
  | g :: t, g' :: t' =>
    have : Decidable (TableScaledUp t t') := instDecidableTableScaledUp t t'
    decidable_of_iff ((g.wasserstein_boundary ≤ g'.wasserstein_boundary ∧
        g.kolmogorov_smirnov_boundary ≤ g'.kolmogorov_smirnov_boundary ∧
        g.rank = g'.rank) ∧ TableScaledUp t t')
      (by unfold TableScaledUp
          exact (List.forall₂_cons (R := fun (g g' : RankRow) =>
            g.wasserstein_boundary ≤ g'.wasserstein_boundary ∧
            g.kolmogorov_smirnov_boundary ≤ g'.kolmogorov_smirnov_boundary ∧
            g.rank = g'.rank)).symm)

theorem scanIdx_le_length (t : List RankRow) (w ks : ℚ) : scanIdx t w ks ≤ t.length := by
  induction t with
  | nil => simp [scanIdx]
  | cons g rest ih =>
    by_cases h : (w < g.wasserstein_boundary ∧ ks < g.kolmogorov_smirnov_boundary)
    · simp [scanIdx, h]
    · simp only [scanIdx, if_neg h, List.length_cons]
      omega

theorem tableScaledUp_map_rank_eq {t t' : List RankRow} (h : TableScaledUp t t') :
    t.map (fun g => g.rank) = t'.map (fun g => g.rank) := by
  induction h with
  | nil => rfl
  | cons hg _ ih => simp only [List.map_cons, hg.2.2, ih]

theorem scanIdx_mono {t t' : List RankRow} (h : TableScaledUp t t') (w ks : ℚ) :
    scanIdx t' w ks ≤ scanIdx t w ks := by
  induction h with
  | nil => exact le_refl _
  | @cons a b l₁ l₂ hg _ ih =>
    by_cases ha : (w < a.wasserstein_boundary ∧ ks < a.kolmogorov_smirnov_boundary)
    · have hb : (w < b.wasserstein_boundary ∧ ks < b.kolmogorov_smirnov_boundary) :=
        ⟨lt_of_lt_of_le ha.1 hg.1, lt_of_lt_of_le ha.2 hg.2.1⟩
      simp [scanIdx, ha, hb]
    · by_cases hb : (w < b.wasserstein_boundary ∧ ks < b.kolmogorov_smirnov_boundary)
      · simp [scanIdx, hb]
      · simp only [scanIdx, if_neg ha, if_neg hb]
        omega

theorem letterRankScan_eq_scanIdx (t : List RankRow) (w ks : ℚ) :
    letterRankScan t (.val w) (.val ks) =
      (if h : scanIdx t w ks < t.length then (t.get ⟨scanIdx t w ks, h⟩).rank else "F") := by
  induction t with
  | nil => rfl
  | cons g rest ih =>
    by_cases h : (w < g.wasserstein_boundary ∧ ks < g.kolmogorov_smirnov_boundary)
    · have hb : ((PyFloat.val w).lt (.val g.wasserstein_boundary)
          && (PyFloat.val ks).lt (.val g.kolmogorov_smirnov_boundary)) = true := by
        simp [PyFloat.lt, h.1, h.2]
      simp [letterRankScan, hb, scanIdx, h]
    · have hb : ((PyFloat.val w).lt (.val g.wasserstein_boundary)
          && (PyFloat.val ks).lt (.val g.kolmogorov_smirnov_boundary)) = false := by
        simp only [PyFloat.lt, Bool.and_eq_false_iff, decide_eq_false_iff_not]
        tauto
      simp only [letterRankScan, hb, Bool.false_eq_true, if_false, scanIdx, if_neg h]
      rw [ih]
      by_cases hlt : scanIdx rest w ks < rest.length
      · rw [dif_pos hlt, dif_pos (by simp only [List.length_cons]; omega)]
        rfl
      · rw [dif_neg hlt, dif_neg (by simp only [List.length_cons]; omega)]

theorem rankSeverity_stdLabel (i : Fin stdLabels.length) :
    rankSeverity (stdLabels.get i) = i.1 := by
  revert i
  with_unfolding_all decide

theorem rankSeverity_get_of_labels {t : List RankRow}
    (hl : t.map (fun g => g.rank) = stdLabels) (i : ℕ) (h : i < t.length) :
    rankSeverity ((t.get ⟨i, h⟩).rank) = i := by
  have hlen : t.length = stdLabels.length := by rw [← hl, List.length_map]
  have hmap : (t.map (fun g => g.rank)).get ⟨i, by rw [List.length_map]; exact h⟩ =
      (t.get ⟨i, h⟩).rank := List.get_map _
  have hstd : stdLabels.get ⟨i, by omega⟩ = (t.get ⟨i, h⟩).rank := by
    rw [← hmap]
    congr 1
    · exact hl.symm
    · exact (Fin.heq_ext_iff (by rw [hl])).2 rfl
  rw [← hstd]
  exact rankSeverity_stdLabel _

/-- C1: for every pair of rational distance values, the classifier scans the
7-row table in order from S to F and returns the label of the first row for
which both values are strictly below the row's boundaries (ties at a
boundary fall through to a stricter row), and "F" when no row matches. -/
theorem rank_classifier_is_first_strict_match (wasserstein_d_value ks_d_value : ℚ) :
    letter_rank_distance_statistics (.val wasserstein_d_value) (.val ks_d_value) =
      specRankFirstMatch wasserstein_d_value ks_d_value := by
  unfold letter_rank_distance_statistics specRankFirstMatch
  exact letterRankScan_eq_find LETTER_RANKS wasserstein_d_value ks_d_value

/-- C6: the rank table has exactly 7 rows and both boundary columns are
strictly increasing from the S row to the F row. -/
theorem rank_table_seven_rows_strictly_increasing :
    LETTER_RANKS.length = 7 ∧
    (LETTER_RANKS.map (fun g => g.wasserstein_boundary)).Chain' (· < ·) ∧
    (LETTER_RANKS.map (fun g => g.kolmogorov_smirnov_boundary)).Chain' (· < ·) := by
  refine ⟨rfl, ?_, ?_⟩ <;>
    · simp only [LETTER_RANKS, List.map_cons, List.map_nil, List.chain'_cons,
        List.chain'_singleton, and_true]
      norm_num

/-- C9: the classifier is total: it always returns one of the seven labels
S–F, and whenever the wasserstein or the KS distance value is NaN every
row's strict comparison is false, so the returned rank is "F". -/
theorem rank_classifier_total_and_nan_gives_F (wasserstein_d_value ks_d_value : PyFloat) :
    letter_rank_distance_statistics wasserstein_d_value ks_d_value ∈ stdLabels ∧
    letter_rank_distance_statistics .nan ks_d_value = "F" ∧
    letter_rank_distance_statistics wasserstein_d_value .nan = "F" := by
  refine ⟨?_, letterRankScan_nan_left _ _, letterRankScan_nan_right _ _⟩
  rcases letterRankScan_mem LETTER_RANKS wasserstein_d_value ks_d_value with h | h
  · rw [letter_rank_distance_statistics, h]; with_unfolding_all decide
  · rw [letter_rank_distance_statistics]
    have hm : LETTER_RANKS.map (fun g => g.rank) = stdLabels := rfl
    rw [hm] at h
    exact h

/-- C7: for a fixed pair of distance values, classifying against a rank
table whose boundaries are all replaced by values at least as large never
yields a strictly worse (stricter) rank than the original table. -/
theorem scaled_up_table_never_stricter (t t' : List RankRow) (w ks : ℚ)
    (hlabels : t.map (fun g => g.rank) = stdLabels)
    (hscale : TableScaledUp t t') :
    rankSeverity (letterRankScan t' (.val w) (.val ks)) ≤
      rankSeverity (letterRankScan t (.val w) (.val ks)) := by
  have hlabels' : t'.map (fun g => g.rank) = stdLabels := by
    rw [← tableScaledUp_map_rank_eq hscale]; exact hlabels
  have hlen : t.length = 7 := by
    rw [← List.length_map t (fun g => g.rank), hlabels]; rfl
  have hlen' : t'.length = 7 := by
    rw [← List.length_map t' (fun g => g.rank), ← tableScaledUp_map_rank_eq hscale,
      List.length_map]
    exact hlen
  have hidx := scanIdx_mono hscale w ks
  have hF : rankSeverity "F" = 6 := by with_unfolding_all decide
  rw [letterRankScan_eq_scanIdx, letterRankScan_eq_scanIdx]
  by_cases h1 : scanIdx t' w ks < t'.length
  · rw [dif_pos h1, rankSeverity_get_of_labels hlabels' _ h1]
    by_cases h2 : scanIdx t w ks < t.length
    · rw [dif_pos h2, rankSeverity_get_of_labels hlabels _ h2]
      exact hidx
    · rw [dif_neg h2, hF]
      omega
  · rw [dif_neg h1]
    have h2 : ¬ scanIdx t w ks < t.length := by omega
    rw [dif_neg h2]

/-- A concrete table with every boundary of `LETTER_RANKS` raised by 0.01,
used to witness the table-monotonicity theorem. -/
def scaledRanks : List RankRow := [
  ⟨0.040, 0.090, "S"⟩,
  ⟨0.070, 0.160, "A"⟩,
  ⟨0.110, 0.180, "B"⟩,
  ⟨0.135, 0.230, "C"⟩,
  ⟨0.160, 0.270, "D"⟩,
  ⟨0.210, 0.310, "E"⟩,
  ⟨0.260, 0.350, "F"⟩]

theorem scaled_up_table_never_stricter_witness :
    (LETTER_RANKS.map (fun g => g.rank) = stdLabels ∧
      TableScaledUp LETTER_RANKS scaledRanks) ∧
    rankSeverity (letterRankScan scaledRanks (.val 0.05) (.val 0.05)) ≤
      rankSeverity (letterRankScan LETTER_RANKS (.val 0.05) (.val 0.05)) :=
  ⟨⟨rfl, by with_unfolding_all decide⟩,
    scaled_up_table_never_stricter LETTER_RANKS scaledRanks 0.05 0.05 rfl
      (by with_unfolding_all decide)⟩

/-- A normalized measure produced by `normalize_raw_data`: NaN when the
resampled draw's standard deviation is zero (numpy's 0.0/0.0), otherwise
the real number num / sqrt(var), represented exactly by the rational pair
(num, var) with var the draw's variance. -/
inductive NormVal where
  | nan : NormVal
  | val : ℚ → ℚ → NormVal
deriving DecidableEq

/-- Ascending order used by `np.sort` on normalized measures: NaN sorts
last, and num / sqrt(var) ≤ num' / sqrt(var') is decided exactly on the
rational representation by sign analysis and squaring. -/
def NormVal.leB : NormVal → NormVal → Bool
  | .nan, .nan => true
  | .nan, .val _ _ => false
  | .val _ _, .nan => true
  | .val p v, .val q w =>
    if p < 0 then
      if q < 0 then decide (q * q * v ≤ p * p * w) else true
    else
      if q < 0 then false else decide (p * p * w ≤ q * q * v)

/-- Mean of a population, as computed by `np.mean`. -/
def pyMean (xs : List ℚ) : ℚ := xs.sum / (xs.length : ℚ)

/-- Population variance (the square of `np.std`, which uses ddof = 0). -/
def pyVariance (xs : List ℚ) : ℚ :=
  ((xs.map (fun x => (x - pyMean xs) ^ 2)).sum) / (xs.length : ℚ)

/-- The static method `normalize_raw_data`: subtract the draw's own
mean and divide by its own standard deviation.  When the variance is zero
every numerator `x - mean` is zero as well, so every entry is numpy's
0.0/0.0 = NaN; otherwise each entry is (x - mean) / sqrt(variance). -/
def normalize_raw_data (raw_data : List ℚ) : List NormVal :=
  if pyVariance raw_data = 0 then raw_data.map (fun _ => NormVal.nan)
  else raw_data.map (fun x => NormVal.val (x - pyMean raw_data) (pyVariance raw_data))

/-- Model of `np.random.choice(population, size)`: `size` draws with replacement,
modelled by an explicit stream of random indices (reduced mod the
population length). -/
def npRandomChoice (population : List ℚ) (size : ℕ) (randomIndex : ℕ → ℕ) : List ℚ :=
  (List.range size).map (fun i => population.getD (randomIndex i % population.length) 0)

/-- The body of `_calculate_empirical_cumulative_distribution_function`
downstream of the random draw: normalize the raw draw, sort it ascending,
pair the i-th smallest entry with probability i/n (n the draw's length),
and drop the rows whose probability is ≥ 0.96 (the DataFrame mask
`~(probability >= 0.96)`). -/
def ecdfFromRaw (raw_data : List ℚ) : List (NormVal × ℚ) :=
  let normalized_sample := normalize_raw_data raw_data
  let n := normalized_sample.length
  ((normalized_sample.mergeSort NormVal.leB).zip
      ((List.range n).map (fun (i : ℕ) => (i : ℚ) / (n : ℚ)))).filter
    (fun e => !(decide (e.2 ≥ 0.96)))

/-- The method `_calculate_empirical_cumulative_distribution_function`:
draw `sample_size` values from the population with replacement, then build
the trimmed empirical distribution table. -/
def calculate_empirical_cumulative_distribution_function
    (sample_size : ℕ) (population : List ℚ) (randomIndex : ℕ → ℕ) : List (NormVal × ℚ) :=
  ecdfFromRaw (npRandomChoice population sample_size randomIndex)

/-- The `measure` column of an empirical distribution sample. -/
def measureColumn (sample : List (NormVal × ℚ)) : List NormVal :=
  sample.map Prod.fst

/-- The `probability` column of an empirical distribution sample. -/
def probabilityColumn (sample : List (NormVal × ℚ)) : List ℚ :=
  sample.map Prod.snd

/-- The constructor line `self.sample_size = min([len(population_a), len(population_b)])`. -/
def sampleSizeOf (population_a population_b : List ℚ) : ℕ :=
  min population_a.length population_b.length

/-- The resampled draw behind `self.sample_a`. -/
def rawDrawA (population_a population_b : List ℚ) (oracle : ℕ → ℕ) : List ℚ :=
  npRandomChoice population_a (sampleSizeOf population_a population_b) oracle

/-- The resampled draw behind `self.sample_b`; it consumes the next block
of the random index stream. -/
def rawDrawB (population_a population_b : List ℚ) (oracle : ℕ → ℕ) : List ℚ :=
  npRandomChoice population_b (sampleSizeOf population_a population_b)
    (fun i => oracle (sampleSizeOf population_a population_b + i))

/-- The field `self.sample_a` as constructed in `__init__`. -/
def sampleA (population_a population_b : List ℚ) (oracle : ℕ → ℕ) : List (NormVal × ℚ) :=
  ecdfFromRaw (rawDrawA population_a population_b oracle)

/-- The field `self.sample_b` as constructed in `__init__`. -/
def sampleB (population_a population_b : List ℚ) (oracle : ℕ → ℕ) : List (NormVal × ℚ) :=
  ecdfFromRaw (rawDrawB population_a population_b oracle)

/-- Python's `round` to an integer: round half to even. -/
def pyRoundHalfEven (q : ℚ) : ℤ :=
  if q - (Int.floor q : ℚ) < 1/2 then Int.floor q
  else if q - (Int.floor q : ℚ) > 1/2 then Int.floor q + 1
  else if Int.floor q % 2 = 0 then Int.floor q else Int.floor q + 1

/-- Python's `round(q, 3)`. -/
def pyRound3 (q : ℚ) : ℚ := (pyRoundHalfEven (q * 1000) : ℚ) / 1000

/-- Python's `round(x, 3)` on a possibly-NaN float: `round` of NaN is NaN. -/
def pyFloatRound3 : PyFloat → PyFloat
  | .nan => .nan
  | .val q => .val (pyRound3 q)

/-- The Distance Report assembled by `__init__`. -/
structure DistanceReport where
  wasserstein_d_value : PyFloat
  ks_d_value : PyFloat
  ks_p_value : PyFloat
  rank : String
deriving DecidableEq

/-- The whole `__init__` pipeline.  The two scipy calls are deterministic
pure functions of the two measure columns; they are passed in as explicit
kernels (`wassersteinKernel`, `ksKernel` for the D-value, `pKernel` for the
p-value) so the data flow of the source is modelled exactly: a shared
sample size, two random draws, two trimmed samples, the two statistics
rounded to 3 decimals, and the letter rank of the rounded values. -/
def runEngine (wassersteinKernel ksKernel pKernel : List NormVal → List NormVal → PyFloat)
    (population_a population_b : List ℚ) (oracle : ℕ → ℕ) : DistanceReport :=
  let sample_a := ecdfFromRaw (rawDrawA population_a population_b oracle)
  let sample_b := ecdfFromRaw (rawDrawB population_a population_b oracle)
  let wasserstein_d_value :=
    pyFloatRound3 (wassersteinKernel (measureColumn sample_a) (measureColumn sample_b))
  let ks_d_value :=
    pyFloatRound3 (ksKernel (measureColumn sample_a) (measureColumn sample_b))
  let ks_p_value := pKernel (measureColumn sample_a) (measureColumn sample_b)
  { wasserstein_d_value := wasserstein_d_value,
    ks_d_value := ks_d_value,
    ks_p_value := ks_p_value,
    rank := letter_rank_distance_statistics wasserstein_d_value ks_d_value }

theorem normalize_length (raw_data : List ℚ) :
    (normalize_raw_data raw_data).length = raw_data.length := by
  unfold normalize_raw_data
  split <;> rw [List.length_map]

theorem zip_range_map_eq {α β : Type} (d : α) :
    ∀ (l : List α) (f : ℕ → β),
      l.zip ((List.range l.length).map f) =
        (List.range l.length).map (fun i => (l.getD i d, f i)) := by
  intro l
  induction l with
  | nil => intro f; rfl
  | cons x xs ih =>
    intro f
    rw [List.length_cons, List.range_succ_eq_map]
    simp only [List.map_cons, List.map_map, List.zip_cons_cons, Function.comp_def,
      List.getD_cons_succ, List.getD_cons_zero]
    rw [ih (fun i => f (i + 1))]

theorem not_ge_decide (x c : ℚ) : (!(decide (x ≥ c))) = decide (x < c) := by
  by_cases h : x < c
  · simp [h, not_le.2 h]
  · simp [h, not_lt.1 h]

/-- Spec-side empirical distribution table: the sorted normalized entries,
the i-th paired with probability i/n, keeping exactly the indices with
i/n < 0.96. -/
def ecdfSpecTable (raw_data : List ℚ) : List (NormVal × ℚ) :=
  let n := raw_data.length
  let sorted := (normalize_raw_data raw_data).mergeSort NormVal.leB
  ((List.range n).map (fun i => (sorted.getD i NormVal.nan, (i : ℚ) / (n : ℚ)))).filter
    (fun e => decide (e.2 < 0.96))

/-- C2: the builder sorts the normalized resampled values ascending, pairs
the i-th smallest (0-indexed) with probability i/n, and drops exactly the
entries with probability ≥ 0.96, so the trimmed sample is exactly the
sorted entries at the indices i with i/n < 0.96. -/
theorem ecdf_builder_sorts_ranks_and_trims (raw_data : List ℚ) :
    ecdfFromRaw raw_data = ecdfSpecTable raw_data := by
  have hlen : (normalize_raw_data raw_data).length = raw_data.length :=
    normalize_length raw_data
  have hslen : ((normalize_raw_data raw_data).mergeSort NormVal.leB).length =
      (normalize_raw_data raw_data).length := List.length_mergeSort _
  simp only [ecdfFromRaw, ecdfSpecTable]
  rw [← hlen, ← hslen]
  rw [zip_range_map_eq NormVal.nan ((normalize_raw_data raw_data).mergeSort NormVal.leB)
    (fun (i : ℕ) => (i : ℚ) / ((((normalize_raw_data raw_data).mergeSort NormVal.leB).length : ℕ) : ℚ))]
  exact List.filter_congr (fun e _ => not_ge_decide e.2 0.96)

theorem rawDrawA_length (a b : List ℚ) (oracle : ℕ → ℕ) :
    (rawDrawA a b oracle).length = sampleSizeOf a b := by
  simp [rawDrawA, npRandomChoice]

theorem rawDrawB_length (a b : List ℚ) (oracle : ℕ → ℕ) :
    (rawDrawB a b oracle).length = sampleSizeOf a b := by
  simp [rawDrawB, npRandomChoice]

theorem probabilityColumn_ecdfFromRaw (raw_data : List ℚ) :
    probabilityColumn (ecdfFromRaw raw_data) =
      ((List.range raw_data.length).map
        (fun (i : ℕ) => (i : ℚ) / (raw_data.length : ℚ))).filter (fun p => decide (p < 0.96)) := by
  have hlen : (normalize_raw_data raw_data).length = raw_data.length :=
    normalize_length raw_data
  have hslen : ((normalize_raw_data raw_data).mergeSort NormVal.leB).length =
      (normalize_raw_data raw_data).length := List.length_mergeSort _
  simp only [probabilityColumn, ecdfFromRaw]
  rw [show (fun (e : NormVal × ℚ) => !(decide (e.2 ≥ 0.96))) =
      ((fun p => !(decide (p ≥ 0.96))) ∘ Prod.snd) from rfl]
  rw [← List.filter_map Prod.snd]
  rw [List.map_snd_zip _ _ (by rw [hslen, hlen, List.length_map, List.length_range])]
  rw [hlen]
  exact List.filter_congr (fun p _ => not_ge_decide p 0.96)

/-- C10: after construction the two samples have equal length and identical
probability columns, both equal to the list of values i/n for 0 ≤ i < n
with i/n < 0.96 (n the shared sample size), whatever the populations hold. -/
theorem samples_share_probability_column (population_a population_b : List ℚ)
    (oracle : ℕ → ℕ) :
    (sampleA population_a population_b oracle).length =
      (sampleB population_a population_b oracle).length ∧
    probabilityColumn (sampleA population_a population_b oracle) =
      probabilityColumn (sampleB population_a population_b oracle) ∧
    probabilityColumn (sampleA population_a population_b oracle) =
      ((List.range (sampleSizeOf population_a population_b)).map
        (fun (i : ℕ) => (i : ℚ) / ((sampleSizeOf population_a population_b : ℕ) : ℚ))).filter
        (fun p => decide (p < 0.96)) := by
  have hA : probabilityColumn (sampleA population_a population_b oracle) =
      ((List.range (sampleSizeOf population_a population_b)).map
        (fun (i : ℕ) => (i : ℚ) / ((sampleSizeOf population_a population_b : ℕ) : ℚ))).filter
        (fun p => decide (p < 0.96)) := by
    rw [sampleA, probabilityColumn_ecdfFromRaw, rawDrawA_length]
  have hB : probabilityColumn (sampleB population_a population_b oracle) =
      ((List.range (sampleSizeOf population_a population_b)).map
        (fun (i : ℕ) => (i : ℚ) / ((sampleSizeOf population_a population_b : ℕ) : ℚ))).filter
        (fun p => decide (p < 0.96)) := by
    rw [sampleB, probabilityColumn_ecdfFromRaw, rawDrawB_length]
  refine ⟨?_, hA.trans hB.symm, hA⟩
  have lA : (sampleA population_a population_b oracle).length =
      (probabilityColumn (sampleA population_a population_b oracle)).length := by
    rw [probabilityColumn, List.length_map]
  have lB : (sampleB population_a population_b oracle).length =
      (probabilityColumn (sampleB population_a population_b oracle)).length := by
    rw [probabilityColumn, List.length_map]
  rw [lA, lB, hA, hB]

/-- C3: the engine computes the single sample size n = min(len a, len b)
once, and both resampled draws have exactly this length n. -/
theorem shared_min_sample_size (population_a population_b : List ℚ) (oracle : ℕ → ℕ)
    (_ha : population_a ≠ []) (_hb : population_b ≠ []) :
    sampleSizeOf population_a population_b =
      min population_a.length population_b.length ∧
    (rawDrawA population_a population_b oracle).length =
      sampleSizeOf population_a population_b ∧
    (rawDrawB population_a population_b oracle).length =
      sampleSizeOf population_a population_b :=
  ⟨rfl, rawDrawA_length _ _ _, rawDrawB_length _ _ _⟩

theorem shared_min_sample_size_witness :
    (([1] : List ℚ) ≠ [] ∧ ([2] : List ℚ) ≠ []) ∧
    (sampleSizeOf [1] [2] = min ([1] : List ℚ).length ([2] : List ℚ).length ∧
      (rawDrawA [1] [2] (fun i => i)).length = sampleSizeOf [1] [2] ∧
      (rawDrawB [1] [2] (fun i => i)).length = sampleSizeOf [1] [2]) :=
  ⟨⟨by decide, by decide⟩,
    shared_min_sample_size [1] [2] (fun i => i) (by decide) (by decide)⟩

/-- C8: the random resampling is the only source of non-determinism: if two
runs over the same populations draw the same resampled values (identically
seeded random source), they produce identical reports, whatever pure
statistic kernels stand for the scipy calls. -/
theorem engine_deterministic_given_equal_draws
    (wassersteinKernel ksKernel pKernel : List NormVal → List NormVal → PyFloat)
    (population_a population_b : List ℚ) (o o' : ℕ → ℕ)
    (ha : rawDrawA population_a population_b o = rawDrawA population_a population_b o')
    (hb : rawDrawB population_a population_b o = rawDrawB population_a population_b o') :
    runEngine wassersteinKernel ksKernel pKernel population_a population_b o =
      runEngine wassersteinKernel ksKernel pKernel population_a population_b o' := by
  unfold runEngine
  rw [ha, hb]

theorem engine_deterministic_given_equal_draws_witness :
    (rawDrawA [1, 2] [3, 4] (fun i => i) = rawDrawA [1, 2] [3, 4] (fun i => i) ∧
      rawDrawB [1, 2] [3, 4] (fun i => i) = rawDrawB [1, 2] [3, 4] (fun i => i)) ∧
    runEngine (fun _ _ => .val 0) (fun _ _ => .val 0) (fun _ _ => .val 1)
        [1, 2] [3, 4] (fun i => i) =
      runEngine (fun _ _ => .val 0) (fun _ _ => .val 0) (fun _ _ => .val 1)
        [1, 2] [3, 4] (fun i => i) :=
  ⟨⟨rfl, rfl⟩,
    engine_deterministic_given_equal_draws (fun _ _ => .val 0) (fun _ _ => .val 0)
      (fun _ _ => .val 1) [1, 2] [3, 4] (fun i => i) (fun i => i) rfl rfl⟩

/-- C4 evaluation at the failing input: for the all-identical population
[5, 5, 5] the resampled draw has zero variance, `normalize_raw_data`
divides by a zero standard deviation, and the engine silently builds its
sample with every measure equal to NaN — no DegenerateDistribution error
exists anywhere in the code. -/
theorem degenerate_population_yields_nan_measures :
    normalize_raw_data [5, 5, 5] = [NormVal.nan, NormVal.nan, NormVal.nan] ∧
    measureColumn (ecdfFromRaw [5, 5, 5]) = [NormVal.nan, NormVal.nan, NormVal.nan] ∧
    measureColumn (sampleA [5, 5, 5] [5, 5, 5] (fun i => i)) =
      [NormVal.nan, NormVal.nan, NormVal.nan] := by
  refine ⟨?_, ?_, ?_⟩ <;> with_unfolding_all decide

/-- Empirical CDF of a sample evaluated at t: the fraction of entries ≤ t. -/
def ecdfAt (xs : List ℚ) (t : ℚ) : ℚ :=
  ((xs.filter (fun x => decide (x ≤ t))).length : ℚ) / (xs.length : ℚ)

/-- The pooled sorted values of two samples. -/
def pooledSorted (u v : List ℚ) : List ℚ :=
  (u ++ v).mergeSort (fun a b => decide (a ≤ b))

/-- Model of `scipy.stats.wasserstein_distance` on 1-D samples: the
integral of |F_u − F_v| over the line, computed as a sum over the
segments between consecutive pooled sorted values. -/
def wasserstein_distance (u v : List ℚ) : ℚ :=
  ((List.range ((pooledSorted u v).length - 1)).map (fun (k : ℕ) =>
    |ecdfAt u ((pooledSorted u v).getD k 0) - ecdfAt v ((pooledSorted u v).getD k 0)| *
      ((pooledSorted u v).getD (k + 1) 0 - (pooledSorted u v).getD k 0))).sum

/-- Model of the D statistic of `scipy.stats.ks_2samp`: the largest
absolute difference between the two samples' empirical CDFs, attained at
one of the pooled sample points. -/
def ks_2samp_d (u v : List ℚ) : ℚ :=
  ((pooledSorted u v).map (fun t => |ecdfAt u t - ecdfAt v t|)).foldr max 0

/-- Model of the p-value of `scipy.stats.ks_2samp`, per its definition:
the probability of observing a D statistic at least as large as the
observed one if both samples were drawn from the same underlying
distribution — over all equally likely splits of the pooled values into
groups of the two original sizes, the fraction of splits whose D statistic
is at least the observed one. -/
def ks_2samp_p (u v : List ℚ) : ℚ :=
  let pool := u ++ v
  let splits := (List.range pool.length).sublistsLen u.length
  let observed := ks_2samp_d u v
  ((splits.filter (fun s => decide (observed ≤
      ks_2samp_d (s.map (fun i => pool.getD i 0))
        (((List.range pool.length).filter (fun i => !(decide (i ∈ s)))).map
          (fun i => pool.getD i 0))))).length : ℚ) / (splits.length : ℚ)

theorem ecdfAt_nonneg (xs : List ℚ) (t : ℚ) : 0 ≤ ecdfAt xs t := by
  unfold ecdfAt
  positivity

theorem ecdfAt_le_one (xs : List ℚ) (t : ℚ) : ecdfAt xs t ≤ 1 := by
  unfold ecdfAt
  rcases Nat.eq_zero_or_pos xs.length with h0 | hpos
  · rw [h0]
    norm_num
  · rw [div_le_one (by exact_mod_cast hpos)]
    exact_mod_cast List.length_filter_le _ xs

theorem getD_eq_get_of_lt {α : Type} (l : List α) (d : α) {i : ℕ} (h : i < l.length) :
    l.getD i d = l.get ⟨i, h⟩ := by
  rw [List.getD_eq_getElem?_getD, List.getElem?_eq_getElem h]
  rfl

theorem pooledSorted_sorted (u v : List ℚ) : (pooledSorted u v).Sorted (· ≤ ·) := by
  have h : ((u ++ v).mergeSort (fun a b : ℚ => decide (a ≤ b))).Pairwise
      (fun a b : ℚ => decide (a ≤ b)) :=
    List.sorted_mergeSort
      (fun a b c hab hbc => by
        simp only [decide_eq_true_eq] at hab hbc ⊢
        exact le_trans hab hbc)
      (fun a b => by
        simp only [Bool.or_eq_true, decide_eq_true_eq]
        exact le_total a b)
      (u ++ v)
  exact h.imp (fun hab => of_decide_eq_true hab)

theorem sorted_getD_le {l : List ℚ} (h : l.Sorted (· ≤ ·)) {k : ℕ} (hk : k + 1 < l.length) :
    l.getD k 0 ≤ l.getD (k + 1) 0 := by
  have hk0 : k < l.length := by omega
  rw [getD_eq_get_of_lt l 0 hk0, getD_eq_get_of_lt l 0 hk]
  exact List.Sorted.rel_get_of_lt h (Fin.mk_lt_mk.2 (Nat.lt_succ_self k))

theorem wasserstein_distance_nonneg (u v : List ℚ) : 0 ≤ wasserstein_distance u v := by
  unfold wasserstein_distance
  apply List.sum_nonneg
  intro x hx
  simp only [List.mem_map, List.mem_range] at hx
  obtain ⟨k, hk, rfl⟩ := hx
  apply mul_nonneg (abs_nonneg _)
  have hsort := pooledSorted_sorted u v
  have hk1 : k + 1 < (pooledSorted u v).length := by omega
  have := sorted_getD_le hsort hk1
  linarith

theorem foldr_max_init_le (l : List ℚ) (c : ℚ) : c ≤ l.foldr max c := by
  induction l with
  | nil => exact le_refl _
  | cons x xs ih => exact le_trans ih (le_max_right _ _)

theorem foldr_max_le (l : List ℚ) (c b : ℚ) (hc : c ≤ b) (h : ∀ x ∈ l, x ≤ b) :
    l.foldr max c ≤ b := by
  induction l with
  | nil => exact hc
  | cons x xs ih =>
    refine max_le (h x (List.mem_cons_self _ _)) (ih ?_)
    exact fun y hy => h y (List.mem_cons_of_mem _ hy)

theorem ks_2samp_d_nonneg (u v : List ℚ) : 0 ≤ ks_2samp_d u v :=
  foldr_max_init_le _ 0

theorem ks_2samp_d_le_one (u v : List ℚ) : ks_2samp_d u v ≤ 1 := by
  unfold ks_2samp_d
  refine foldr_max_le _ 0 1 (by norm_num) ?_
  intro x hx
  simp only [List.mem_map] at hx
  obtain ⟨t, _, rfl⟩ := hx
  rw [abs_sub_le_iff]
  constructor
  · have h1 := ecdfAt_le_one u t
    have h2 := ecdfAt_nonneg v t
    linarith
  · have h1 := ecdfAt_le_one v t
    have h2 := ecdfAt_nonneg u t
    linarith

theorem ks_2samp_p_nonneg (u v : List ℚ) : 0 ≤ ks_2samp_p u v := by
  unfold ks_2samp_p
  positivity

theorem ks_2samp_p_le_one (u v : List ℚ) : ks_2samp_p u v ≤ 1 := by
  unfold ks_2samp_p
  have htot : 0 < (((List.range (u ++ v).length).sublistsLen u.length).length : ℚ) := by
    rw [List.length_sublistsLen, List.length_range]
    exact_mod_cast Nat.choose_pos (by simp)
  rw [div_le_one htot]
  exact_mod_cast List.length_filter_le _ _

theorem pyRoundHalfEven_nonneg {q : ℚ} (h : 0 ≤ q) : 0 ≤ pyRoundHalfEven q := by
  unfold pyRoundHalfEven
  have hf : (0 : ℤ) ≤ Int.floor q := Int.floor_nonneg.2 h
  split_ifs <;> omega

theorem pyRoundHalfEven_le_int {q : ℚ} {m : ℤ} (h : q ≤ (m : ℚ)) : pyRoundHalfEven q ≤ m := by
  have hf : Int.floor q ≤ m := by
    have := Int.floor_mono h
    rwa [Int.floor_intCast] at this
  unfold pyRoundHalfEven
  by_cases h1 : q - (Int.floor q : ℚ) < 1/2
  · rw [if_pos h1]
    exact hf
  · have hlt : Int.floor q < m := by
      rcases lt_or_eq_of_le hf with hlt | he
      · exact hlt
      · exfalso
        apply h1
        rw [he]
        have := Int.floor_le q
        rw [he] at this
        linarith
    rw [if_neg h1]
    split_ifs <;> omega

theorem pyRound3_nonneg {q : ℚ} (h : 0 ≤ q) : 0 ≤ pyRound3 q := by
  unfold pyRound3
  apply div_nonneg _ (by norm_num)
  exact_mod_cast pyRoundHalfEven_nonneg (by positivity)

theorem pyRound3_le_one {q : ℚ} (h : q ≤ 1) : pyRound3 q ≤ 1 := by
  unfold pyRound3
  rw [div_le_one (by norm_num)]
  have hle : pyRoundHalfEven (q * 1000) ≤ (1000 : ℤ) :=
    pyRoundHalfEven_le_int (by push_cast; linarith)
  exact_mod_cast hle

/-- On NaN-free samples the modeled statistics are in range: the rounded
Wasserstein distance is nonnegative, the rounded KS D statistic lies in
[0, 1], and the KS p-value lies in [0, 1].  This is the non-degenerate
side of the range property; the degenerate (NaN) side is settled by
`report_wasserstein_is_nan_on_degenerate_input`. -/
theorem report_statistics_in_range (u v : List ℚ) :
    0 ≤ pyRound3 (wasserstein_distance u v) ∧
    0 ≤ pyRound3 (ks_2samp_d u v) ∧ pyRound3 (ks_2samp_d u v) ≤ 1 ∧
    0 ≤ ks_2samp_p u v ∧ ks_2samp_p u v ≤ 1 :=
  ⟨pyRound3_nonneg (wasserstein_distance_nonneg u v),
    pyRound3_nonneg (ks_2samp_d_nonneg u v),
    pyRound3_le_one (ks_2samp_d_le_one u v),
    ks_2samp_p_nonneg u v,
    ks_2samp_p_le_one u v⟩

/-- NaN propagation of numpy/scipy float arithmetic: a distance statistic
of samples containing NaN is NaN (`scipy.stats.wasserstein_distance` is
plain array arithmetic — differences, products, sums — so a NaN input
poisons its result). -/
def NaNPropagating (K : List NormVal → List NormVal → PyFloat) : Prop :=
  ∀ u v, (NormVal.nan ∈ u ∨ NormVal.nan ∈ v) → K u v = .nan

/-- C5 fails on the code at a degenerate input: for the all-identical
populations [5, 5, 5] the engine's measure columns consist of NaN, so for
every NaN-propagating wasserstein kernel the produced report has
wasserstein_d_value = round(NaN, 3) = NaN, Python's 0 <= NaN comparison is
False (the claimed bound wasserstein_d_value ≥ 0 does not hold), and the
engine still returns a report, ranked "F", instead of failing. -/
theorem report_wasserstein_is_nan_on_degenerate_input
    (wassersteinKernel ksKernel pKernel : List NormVal → List NormVal → PyFloat)
    (hw : NaNPropagating wassersteinKernel) :
    (runEngine wassersteinKernel ksKernel pKernel [5, 5, 5] [5, 5, 5]
        (fun i => i)).wasserstein_d_value = .nan ∧
    PyFloat.le (.val 0)
      ((runEngine wassersteinKernel ksKernel pKernel [5, 5, 5] [5, 5, 5]
        (fun i => i)).wasserstein_d_value) = false ∧
    (runEngine wassersteinKernel ksKernel pKernel [5, 5, 5] [5, 5, 5]
        (fun i => i)).rank = "F" := by
  have hmem : NormVal.nan ∈ measureColumn (ecdfFromRaw
      (rawDrawA [5, 5, 5] [5, 5, 5] (fun i => i))) := by
    with_unfolding_all decide
  have hK : wassersteinKernel
      (measureColumn (ecdfFromRaw (rawDrawA [5, 5, 5] [5, 5, 5] (fun i => i))))
      (measureColumn (ecdfFromRaw (rawDrawB [5, 5, 5] [5, 5, 5] (fun i => i)))) = .nan :=
    hw _ _ (Or.inl hmem)
  have hfield : (runEngine wassersteinKernel ksKernel pKernel [5, 5, 5] [5, 5, 5]
      (fun i => i)).wasserstein_d_value = .nan := by
    simp only [runEngine, hK, pyFloatRound3]
  refine ⟨hfield, ?_, ?_⟩
  · rw [hfield]
    rfl
  · have hrank : (runEngine wassersteinKernel ksKernel pKernel [5, 5, 5] [5, 5, 5]
        (fun i => i)).rank = letter_rank_distance_statistics
          (pyFloatRound3 (wassersteinKernel
            (measureColumn (ecdfFromRaw (rawDrawA [5, 5, 5] [5, 5, 5] (fun i => i))))
            (measureColumn (ecdfFromRaw (rawDrawB [5, 5, 5] [5, 5, 5] (fun i => i))))))
          (pyFloatRound3 (ksKernel
            (measureColumn (ecdfFromRaw (rawDrawA [5, 5, 5] [5, 5, 5] (fun i => i))))
            (measureColumn (ecdfFromRaw (rawDrawB [5, 5, 5] [5, 5, 5] (fun i => i)))))) := rfl
    rw [hrank, hK]
    exact letterRankScan_nan_left _ _

theorem report_wasserstein_is_nan_on_degenerate_input_witness :
    NaNPropagating (fun _ _ => PyFloat.nan) ∧
    ((runEngine (fun _ _ => PyFloat.nan) (fun _ _ => PyFloat.nan) (fun _ _ => PyFloat.nan)
        [5, 5, 5] [5, 5, 5] (fun i => i)).wasserstein_d_value = .nan ∧
      PyFloat.le (.val 0)
        ((runEngine (fun _ _ => PyFloat.nan) (fun _ _ => PyFloat.nan) (fun _ _ => PyFloat.nan)
          [5, 5, 5] [5, 5, 5] (fun i => i)).wasserstein_d_value) = false ∧
      (runEngine (fun _ _ => PyFloat.nan) (fun _ _ => PyFloat.nan) (fun _ _ => PyFloat.nan)
        [5, 5, 5] [5, 5, 5] (fun i => i)).rank = "F") :=
  ⟨fun _ _ _ => rfl,
    report_wasserstein_is_nan_on_degenerate_input
      (fun _ _ => PyFloat.nan) (fun _ _ => PyFloat.nan) (fun _ _ => PyFloat.nan)
      (fun _ _ _ => rfl)⟩

end StatisticalDistanceTest
